import Mathlib

/-!
Verification of the pulse-simulation tutorial notebooks.

The notebooks drive the `qiskit_dynamics` pulse-level simulator: they build
Hamiltonian models, convert pulse schedules to signals, integrate the
Schrödinger equation, and optimize pulse parameters.  The definitions below
shallowly embed the notebook code (and, where the underlying library routines
are not part of the repository, model their documented behaviour from the
specification).
-/

open scoped Matrix Kronecker
open Matrix

namespace PulseTutorial

/-! ### Definitions -/

/-- Two-by-two complex matrices, the single-qubit operator type used
throughout the optimization notebook. -/
abbrev Mat2 := Matrix (Fin 2) (Fin 2) ℂ

/-- Embedding of `Operator.from_label('X')`, the Pauli X matrix. -/
def X_op : Mat2 := !![0, 1; 1, 0]

/-- Embedding of the notebook's `fidelity`:
`np.abs(np.sum(X_op * U))**2 / 4.`, where `*` is NumPy's elementwise
(Hadamard) product and `np.sum` sums all entries. -/
noncomputable def fidelity (U : Mat2) : ℝ :=
  Complex.abs (∑ i, ∑ j, (X_op.hadamard U) i j) ^ 2 / 4

/-- The reference formula for the fidelity of `U` against the X gate:
`|Tr(X U)|² / 4` with a genuine matrix product inside the trace. -/
noncomputable def fidelityTrace (U : Mat2) : ℝ :=
  Complex.abs ((X_op * U).trace) ^ 2 / 4

/-- Modelled from the spec: a "Signal" is "a time-domain complex envelope plus
carrier frequency representing a control drive"; `DiscreteSignal` carries a
piecewise-constant envelope given by a sample list with sample spacing `dt`. -/
structure DiscreteSignal where
  dt : ℝ
  samples : List ℂ
  carrier_freq : ℝ

/-- A dummy signal used as the default for list lookups. -/
def dsig0 : DiscreteSignal := ⟨1, [], 0⟩

/-- The piecewise-constant envelope of a discrete signal as a function of
time: on the sample interval `[j*dt, (j+1)*dt)` it takes the value of the
`j`-th sample, and it is `0` before time `0`. -/
noncomputable def envelope (s : DiscreteSignal) (t : ℝ) : ℂ :=
  if 0 ≤ t then s.samples.getD (⌊t / s.dt⌋).toNat 0 else 0

/-- Modelled from the spec: the timed pulse instructions handled by the
converter — "play envelope, shift phase, shift frequency, acquire" — on named
channels. -/
inductive Instruction where
  | play (samples : List ℂ) (channel : String)
  | shiftPhase (phi : ℝ) (channel : String)
  | shiftFrequency (f : ℝ) (channel : String)
  | acquire (duration : ℕ) (qubit : ℕ) (register : ℕ)

/-- Modelled from the spec: the sample sequence the converter accumulates on
channel `ch`, tracking the channel's phase `phi` and frequency shift `df`;
played samples are modulated by the accumulated phase and frequency shift.
`n` is the index of the next output sample. -/
noncomputable def channelSamples (dt : ℝ) (ch : String) :
    ℝ → ℝ → ℕ → List Instruction → List ℂ
  | _, _, _, [] => []
  | phi, df, n, Instruction.play s c :: rest =>
      if c = ch then
        (s.mapIdx fun k x =>
            Complex.exp (Complex.I * (phi + 2 * Real.pi * df * ((n + k) * dt))) * x)
          ++ channelSamples dt ch phi df (n + s.length) rest
      else channelSamples dt ch phi df n rest
  | phi, df, n, Instruction.shiftPhase p c :: rest =>
      channelSamples dt ch (if c = ch then phi + p else phi) df n rest
  | phi, df, n, Instruction.shiftFrequency f c :: rest =>
      channelSamples dt ch phi (if c = ch then df + f else df) n rest
  | phi, df, n, Instruction.acquire _ _ _ :: rest =>
      channelSamples dt ch phi df n rest

/-- Modelled from the spec: `InstructionToSignals.get_signals` "maps a sequence
of timed instructions … on named channels into piecewise-defined
complex-valued time functions ('signals'), one per channel": for each entry
`(ch, f)` of the `carriers` map it emits one discrete signal whose samples are
the accumulated samples of channel `ch` and whose carrier frequency is `f`. -/
noncomputable def get_signals (dt : ℝ) (carriers : List (String × ℝ))
    (sched : List Instruction) : List DiscreteSignal :=
  carriers.map fun c => ⟨dt, channelSamples dt c.1 0 0 0 sched, c.2⟩

/-- The qubit frequency `v = 5.` of the optimization notebook. -/
noncomputable def v : ℝ := 5

/-- Embedding of the notebook's convolution filter
`gaus(t) = 2*_dt/sqrt(2*pi*sigma**2)*exp(-t**2/(2*sigma**2))` with
`sigma = 15`, `_dt = 0.1`. -/
noncomputable def gaus (t : ℝ) : ℝ :=
  2 * 0.1 / Real.sqrt (2 * Real.pi * 15 ^ 2) * Real.exp (-t ^ 2 / (2 * 15 ^ 2))

/-- Embedding of `np.arctan(samples) / (np.pi / 2)`: the normalized
pre-convolution samples of `signal_mapping`. -/
noncomputable def boundedSamples (params : List ℝ) : List ℝ :=
  params.map fun x => Real.arctan x / (Real.pi / 2)

/-- Embedding of `np.append(Array([0], dtype=complex), bounded_samples)`. -/
noncomputable def paddedSamples (params : List ℝ) : List ℂ :=
  (0 : ℂ) :: (boundedSamples params).map fun x => (x : ℂ)

/-- Discrete convolution of two sample lists,
`(f * g)[k] = ∑ i ≤ k, f[i]·g[k-i]` (out-of-range samples read as `0`). -/
noncomputable def convolve (f g : List ℂ) : List ℂ :=
  (List.range (f.length + g.length - 1)).map fun k =>
    ∑ i ∈ Finset.range (k + 1), f.getD i 0 * g.getD (k - i) 0

/-- Modelled from the spec: the library's `Convolution(gaus)` applied to a
discrete signal convolves the sample list with the filter `gaus` sampled at
the signal's sample spacing, keeping `dt` and the carrier frequency. -/
noncomputable def convolutionGaus (s : DiscreteSignal) : DiscreteSignal :=
  ⟨s.dt,
    convolve s.samples ((List.range s.samples.length).map fun k => ((gaus (k * s.dt) : ℝ) : ℂ)),
    s.carrier_freq⟩

/-- Embedding of the notebook's `signal_mapping`: normalize the raw parameters
into `[-1, 1]` with `arctan(x)/(pi/2)`, pad with a leading `0`, convolve with
the Gaussian filter, and set the carrier frequency to `v`. -/
noncomputable def signal_mapping (params : List ℝ) : DiscreteSignal :=
  let out := convolutionGaus ⟨1, paddedSamples params, 0⟩
  ⟨out.dt, out.samples, v⟩

/-- Modelled from the spec: the differential-equation solver "integrates the
time-dependent Schrödinger … equation".  Over one sample interval the
Hamiltonian is the constant matrix `H` and the exact propagator is
`exp(-i·dt·H)`. -/
noncomputable def stepU (dt : ℝ) (H : Mat2) : Mat2 :=
  NormedSpace.exp ℂ ((-(Complex.I * (dt : ℂ))) • H)

/-- A matrix is unitary when its conjugate transpose is a two-sided inverse. -/
def IsUnitary (U : Mat2) : Prop := Uᴴ * U = 1 ∧ U * Uᴴ = 1

/-- The squared norm of a state vector, as the dot product with its
conjugate. -/
noncomputable def norm2 (w : Fin 2 → ℂ) : ℂ := star w ⬝ᵥ w

/-- The piecewise-constant Hamiltonian sequence of the model: on each sample
interval the Hamiltonian is the drift plus the real signal coefficient times
the drive operator. -/
noncomputable def hamSeq (drift drive : Mat2) (coeffs : List ℝ) : List Mat2 :=
  coeffs.map fun (c : ℝ) => drift + (c : ℂ) • drive

/-- Modelled from the spec: the solver's trajectory of unitary-operator
snapshots (`results.y`) with initial operator `y0`, one snapshot per step. -/
noncomputable def matTraj (dt : ℝ) : List Mat2 → Mat2 → List Mat2
  | [], y0 => [y0]
  | H :: rest, y0 => y0 :: matTraj dt rest (stepU dt H * y0)

/-- Modelled from the spec: the solver's trajectory of state-vector snapshots
with initial state `y0`. -/
noncomputable def vecTraj (dt : ℝ) : List Mat2 → (Fin 2 → ℂ) → List (Fin 2 → ℂ)
  | [], y0 => [y0]
  | H :: rest, y0 => y0 :: vecTraj dt rest ((stepU dt H).mulVec y0)

/-- The drive strength `r = 0.02` of the optimization notebook. -/
noncomputable def r : ℝ := 0.02

/-- Embedding of `Operator.from_label('Z')`, the Pauli Z matrix. -/
def Zop : Mat2 := !![1, 0; 0, -1]

/-- Embedding of `static_hamiltonian = 2 * np.pi * v * Operator.from_label('Z') / 2`. -/
noncomputable def static_hamiltonian : Mat2 := ((2 * Real.pi * v / 2 : ℝ) : ℂ) • Zop

/-- Embedding of `drive_term = 2 * np.pi * r * Operator.from_label('X') / 2`. -/
noncomputable def drive_term : Mat2 := ((2 * Real.pi * r / 2 : ℝ) : ℂ) • X_op

/-- The real drive coefficient of a signal on each sample interval: the real
part of the envelope modulated by the carrier at the sample time. -/
noncomputable def signalCoeffs (s : DiscreteSignal) : List ℝ :=
  s.samples.mapIdx fun k x =>
    (x * Complex.exp (Complex.I * (2 * Real.pi * s.carrier_freq * (k * s.dt)))).re

/-- Modelled from the spec: `ham_solver.solve` with a matrix initial value —
the solver's operator trajectory under drift plus signal-weighted drive. -/
noncomputable def solve_y (dt : ℝ) (drift drive : Mat2) (s : DiscreteSignal)
    (y0 : Mat2) : List Mat2 :=
  matTraj dt (hamSeq drift drive (signalCoeffs s)) y0

/-- The final snapshot `results.y[-1]` of solving from the identity under the
signal produced by `signal_mapping params`. -/
noncomputable def finalU (params : List ℝ) : Mat2 :=
  (solve_y (signal_mapping params).dt static_hamiltonian drive_term
    (signal_mapping params) (1 : Mat2)).getLastD 1

/-- Embedding of the notebook's `objective`: apply `signal_mapping`, simulate
from the identity and return one minus the fidelity of the final snapshot. -/
noncomputable def objective (params : List ℝ) : ℝ :=
  1 - fidelity ((matTraj (signal_mapping params).dt
      (hamSeq static_hamiltonian drive_term (signalCoeffs (signal_mapping params)))
      (1 : Mat2)).getLastD 1)

/-- Nine-by-nine complex matrices on the two-subsystem space, indexed as Kronecker
products of two three-level subsystems. -/
abbrev Mat9 := Matrix (Fin 3 × Fin 3) (Fin 3 × Fin 3) ℂ

/-- Frequency of subsystem 0, `v0 = 4.86e9`. -/
noncomputable def v0 : ℝ := 4.86e9

/-- Anharmonicity of subsystem 0, `anharm0 = -0.32e9`. -/
noncomputable def anharm0 : ℝ := -0.32e9

/-- Drive strength of subsystem 0, `r0 = 0.22e9`. -/
noncomputable def r0 : ℝ := 0.22e9

/-- Frequency of subsystem 1, `v1 = 4.97e9`. -/
noncomputable def v1 : ℝ := 4.97e9

/-- Anharmonicity of subsystem 1, `anharm1 = -0.32e9`. -/
noncomputable def anharm1 : ℝ := -0.32e9

/-- Drive strength of subsystem 1, `r1 = 0.26e9`. -/
noncomputable def r1 : ℝ := 0.26e9

/-- Coupling strength, `J = 0.002e9`. -/
noncomputable def J : ℝ := 0.002e9

/-- Embedding of `a = np.diag(np.sqrt(np.arange(1, dim)), 1)`, the
single-subsystem lowering operator for `dim = 3`. -/
noncomputable def a : Matrix (Fin 3) (Fin 3) ℂ :=
  Matrix.of fun i j =>
    if (i : ℕ) + 1 = (j : ℕ) then ((Real.sqrt ((i : ℕ) + 1) : ℝ) : ℂ) else 0

/-- Embedding of `adag = np.diag(np.sqrt(np.arange(1, dim)), -1)`, the
single-subsystem raising operator. -/
noncomputable def adag : Matrix (Fin 3) (Fin 3) ℂ :=
  Matrix.of fun i j =>
    if (j : ℕ) + 1 = (i : ℕ) then ((Real.sqrt ((j : ℕ) + 1) : ℝ) : ℂ) else 0

/-- Embedding of `N = np.diag(np.arange(dim))`, the number operator. -/
def N : Matrix (Fin 3) (Fin 3) ℂ := Matrix.diagonal fun i => ((i : ℕ) : ℂ)

/-- Embedding of `ident = np.eye(dim, dtype=complex)`. -/
def ident : Matrix (Fin 3) (Fin 3) ℂ := 1

/-- Embedding of `full_ident = np.eye(dim**2, dtype=complex)`. -/
def full_ident : Mat9 := 1

/-- Embedding of `N0 = np.kron(ident, N)`. -/
noncomputable def N0 : Mat9 := ident ⊗ₖ N

/-- Embedding of `N1 = np.kron(N, ident)`. -/
noncomputable def N1 : Mat9 := N ⊗ₖ ident

/-- Embedding of `a0 = np.kron(ident, a)`. -/
noncomputable def a0 : Mat9 := ident ⊗ₖ a

/-- Embedding of `a1 = np.kron(a, ident)`. -/
noncomputable def a1 : Mat9 := a ⊗ₖ ident

/-- Embedding of `a0dag = np.kron(ident, adag)`. -/
noncomputable def a0dag : Mat9 := ident ⊗ₖ adag

/-- Embedding of `a1dag = np.kron(adag, ident)`. -/
noncomputable def a1dag : Mat9 := adag ⊗ₖ ident

/-- Embedding of
`static_ham0 = 2 * np.pi * v0 * N0 + np.pi * anharm0 * N0 * (N0 - full_ident)`;
NumPy's `*` between matrices is the elementwise (Hadamard) product. -/
noncomputable def static_ham0 : Mat9 :=
  ((2 * Real.pi * v0 : ℝ) : ℂ) • N0
    + ((Real.pi * anharm0 : ℝ) : ℂ) • (N0 ⊙ (N0 - full_ident))

/-- Embedding of
`static_ham1 = 2 * np.pi * v1 * N1 + np.pi * anharm1 * N1 * (N1 - full_ident)`. -/
noncomputable def static_ham1 : Mat9 :=
  ((2 * Real.pi * v1 : ℝ) : ℂ) • N1
    + ((Real.pi * anharm1 : ℝ) : ℂ) • (N1 ⊙ (N1 - full_ident))

/-- Embedding of
`static_ham_full = static_ham0 + static_ham1 + 2 * np.pi * J * ((a0 + a0dag) @ (a1 + a1dag))`,
with `@` the matrix product. -/
noncomputable def static_ham_full : Mat9 :=
  static_ham0 + static_ham1
    + ((2 * Real.pi * J : ℝ) : ℂ) • ((a0 + a0dag) * (a1 + a1dag))

/-- Embedding of `drive_op0 = 2 * np.pi * r0 * (a0 + a0dag)`. -/
noncomputable def drive_op0 : Mat9 := ((2 * Real.pi * r0 : ℝ) : ℂ) • (a0 + a0dag)

/-- Embedding of `drive_op1 = 2 * np.pi * r1 * (a1 + a1dag)`. -/
noncomputable def drive_op1 : Mat9 := ((2 * Real.pi * r1 : ℝ) : ℂ) • (a1 + a1dag)

/-- The drift Hamiltonian as the claim's formula states it, with genuine
matrix products in the anharmonic terms
`N0 (N0 - I)` and `N1 (N1 - I)`. -/
noncomputable def static_ham_full_spec : Mat9 :=
  ((2 * Real.pi * v0 : ℝ) : ℂ) • N0
    + ((Real.pi * anharm0 : ℝ) : ℂ) • (N0 * (N0 - full_ident))
    + ((2 * Real.pi * v1 : ℝ) : ℂ) • N1
    + ((Real.pi * anharm1 : ℝ) : ℂ) • (N1 * (N1 - full_ident))
    + ((2 * Real.pi * J : ℝ) : ℂ) • ((a0 + a0dag) * (a1 + a1dag))

/-- Modelled from the spec: a classical bitstring outcome has "one classical
outcome digit per subsystem", each digit ranging below the corresponding
entry of `subsystem_dims`. -/
abbrev Outcome (dims : List ℕ) := ∀ i : Fin dims.length, Fin (dims.get i)

/-- Modelled from the spec: shot sampling tallies, for each outcome, how many
of the `shots` projective samples hit it. -/
def counts (dims : List ℕ) (shots : ℕ) (sample : Fin shots → Outcome dims)
    (o : Outcome dims) : ℕ :=
  (Finset.univ.filter fun s => sample s = o).card

/-- Modelled from the spec: `DynamicsBackend.run` returns one counts table per
submitted experiment, each obtained by shot sampling that experiment's final
state. -/
def backendRun (dims : List ℕ) (shots : ℕ) {σ : Type} (scheds : List σ)
    (sampler : σ → Fin shots → Outcome dims) : List (Outcome dims → ℕ) :=
  scheds.map fun c => counts dims shots (sampler c)

/-- Square complex matrices of dimension `d`. -/
abbrev MatN (d : ℕ) := Matrix (Fin d) (Fin d) ℂ

/-- The frame transformation into the rotating frame of `F` at time `t`,
`exp(i·t·F)`. -/
noncomputable def frameIn {d : ℕ} (F : MatN d) (t : ℝ) : MatN d :=
  NormedSpace.exp ℂ ((Complex.I * (t : ℂ)) • F)

/-- The inverse frame transformation, `exp(-i·t·F)`. -/
noncomputable def frameOut {d : ℕ} (F : MatN d) (t : ℝ) : MatN d :=
  NormedSpace.exp ℂ (-((Complex.I * (t : ℂ)) • F))

/-- Modelled from the spec: a "rotating frame" is "a mathematical
transformation simplifying the Hamiltonian for numerical integration" — the
solver configured with `rotating_frame = F` tracks the frame state
`exp(i·t·F)·U·y0` (with `U` the lab-frame propagator), and the backend maps
the final frame state back to the lab frame before projecting measurement
outcomes. -/
noncomputable def labState {d : ℕ} (F : MatN d) (t : ℝ) (U : MatN d)
    (y0 : Fin d → ℂ) : Fin d → ℂ :=
  (frameOut F t).mulVec ((frameIn F t).mulVec (U.mulVec y0))

/-- Modelled from the spec: the measurement emulator's outcome distribution,
the squared amplitudes of the final lab-frame state. -/
noncomputable def outcomeDist {d : ℕ} (w : Fin d → ℂ) : Fin d → ℝ :=
  fun i => Complex.normSq (w i)

/-- The conversion state the solver keeps per channel while turning a
schedule into samples: accumulated phase, frequency shift, next sample index
and the samples emitted so far. -/
structure ConvState where
  phi : ℝ
  df : ℝ
  n : ℕ
  acc : List ℂ

/-- Modelled from the spec: one step of the solver-internal schedule-to-samples
conversion, processing a single instruction. -/
noncomputable def stepConv (dt : ℝ) (ch : String) (st : ConvState) :
    Instruction → ConvState
  | Instruction.play s c =>
      if c = ch then
        ⟨st.phi, st.df, st.n + s.length,
          st.acc ++ s.mapIdx fun k x =>
            Complex.exp (Complex.I * (st.phi + 2 * Real.pi * st.df * ((st.n + k) * dt))) * x⟩
      else st
  | Instruction.shiftPhase p c =>
      if c = ch then ⟨st.phi + p, st.df, st.n, st.acc⟩ else st
  | Instruction.shiftFrequency f c =>
      if c = ch then ⟨st.phi, st.df + f, st.n, st.acc⟩ else st
  | Instruction.acquire _ _ _ => st

/-- Modelled from the spec: the solver-internal conversion of a schedule to
channel samples, as a left fold over the instruction sequence. -/
noncomputable def channelSamplesFold (dt : ℝ) (ch : String)
    (sched : List Instruction) : List ℂ :=
  (sched.foldl (stepConv dt ch) ⟨0, 0, 0, []⟩).acc

/-- Modelled from the spec: `Solver.solve` with explicit signals — the state
trajectory under drift plus signal-weighted drive, driven by the first signal
of the list (the solver of the pulse notebook has the single channel `d0`). -/
noncomputable def solve_signals (dt : ℝ) (drift drive : Mat2)
    (signals : List DiscreteSignal) (y0 : Fin 2 → ℂ) : List (Fin 2 → ℂ) :=
  vecTraj dt (hamSeq drift drive (signalCoeffs (signals.getD 0 dsig0))) y0

/-- Modelled from the spec: `Solver.solve` with the schedule passed directly
to the `signals` argument — the solver converts the schedule internally
(fold-based conversion) with its own `dt` and channel carrier frequency and
solves the same trajectory. -/
noncomputable def solve_schedule (dt : ℝ) (drift drive : Mat2) (ch : String)
    (f : ℝ) (sched : List Instruction) (y0 : Fin 2 → ℂ) : List (Fin 2 → ℂ) :=
  vecTraj dt (hamSeq drift drive
    (signalCoeffs ⟨dt, channelSamplesFold dt ch sched, f⟩)) y0

/-- Modelled from the spec: "Measurements in `DynamicsBackend` are computed
projectively at the start time of the acquire instructions" — the backend only
simulates the schedule up to the first `acquire` instruction; the instruction
itself (its duration included) contributes nothing. -/
def truncAtAcquire : List Instruction → List Instruction
  | [] => []
  | Instruction.acquire _ _ _ :: _ => []
  | i :: rest => i :: truncAtAcquire rest

/-- Modelled from the spec: the state the backend measures — the final
snapshot of solving the schedule up to the start of the first `acquire`
instruction (no `MeasureChannel` stimulus is in the model). -/
noncomputable def measuredState (dt : ℝ) (drift drive : Mat2) (ch : String)
    (f : ℝ) (sched : List Instruction) (y0 : Fin 2 → ℂ) : Fin 2 → ℂ :=
  (vecTraj dt (hamSeq drift drive
    (signalCoeffs ⟨dt, channelSamples dt ch 0 0 0 (truncAtAcquire sched), f⟩)) y0).getLastD y0

/-- Modelled from the spec: the backend's measurement outcome distribution for
a schedule, obtained by projecting the measured state. -/
noncomputable def runDist (dt : ℝ) (drift drive : Mat2) (ch : String) (f : ℝ)
    (sched : List Instruction) (y0 : Fin 2 → ℂ) : Fin 2 → ℝ :=
  outcomeDist (measuredState dt drift drive ch f sched y0)

/-! ### Theorems -/

/-- C3: for every 2×2 complex matrix `U`, the notebook's elementwise
implementation `np.abs(np.sum(X_op * U))**2 / 4` equals the trace formula
`|Tr(X U)|² / 4`. -/
theorem fidelity_eq_fidelityTrace (U : Mat2) : fidelity U = fidelityTrace U := by
  simp [fidelity, fidelityTrace, Matrix.trace, Matrix.mul_apply, Matrix.diag,
    Fin.sum_univ_two, X_op]
  ring_nf

/-- On the `j`-th sample interval the envelope is constantly the `j`-th
sample. -/
theorem envelope_piecewise (s : DiscreteSignal) (hdt : 0 < s.dt) (j : ℕ) (t : ℝ)
    (h1 : (j : ℝ) * s.dt ≤ t) (h2 : t < ((j : ℝ) + 1) * s.dt) :
    envelope s t = s.samples.getD j 0 := by
  have ht : 0 ≤ t := le_trans (by positivity) h1
  have hfloor : ⌊t / s.dt⌋ = (j : ℤ) := by
    rw [Int.floor_eq_iff]
    constructor
    · rw [le_div_iff₀ hdt]
      exact_mod_cast h1
    · rw [div_lt_iff₀ hdt]
      exact_mod_cast h2
  rw [envelope, if_pos ht, hfloor, Int.toNat_natCast]

/-- C1: `get_signals` returns exactly one signal per channel named in the
carriers map, the signal at position `k` has the carrier frequency given for
channel `k` in the carriers map, and its envelope is a piecewise-constant
complex function of time. -/
theorem get_signals_one_per_channel (dt : ℝ) (hdt : 0 < dt)
    (carriers : List (String × ℝ)) (sched : List Instruction) :
    (get_signals dt carriers sched).length = carriers.length ∧
    ∀ k, k < carriers.length →
      ((get_signals dt carriers sched).getD k dsig0).carrier_freq
          = (carriers.getD k ("", 0)).2 ∧
      ∀ (j : ℕ) (t : ℝ), (j : ℝ) * dt ≤ t → t < ((j : ℝ) + 1) * dt →
        envelope ((get_signals dt carriers sched).getD k dsig0) t
          = ((get_signals dt carriers sched).getD k dsig0).samples.getD j 0 := by
  refine ⟨by simp [get_signals], fun k hk => ?_⟩
  have hget : (get_signals dt carriers sched).getD k dsig0
      = ⟨dt, channelSamples dt (carriers.getD k ("", 0)).1 0 0 0 sched,
          (carriers.getD k ("", 0)).2⟩ := by
    simp only [get_signals, List.getD_eq_getElem?_getD, List.getElem?_map]
    rw [List.getElem?_eq_getElem hk]
    simp
  refine ⟨by rw [hget], fun j t h1 h2 => ?_⟩
  exact envelope_piecewise _ (by rw [hget]; exact hdt) j t
    (by rw [hget]; exact h1) (by rw [hget]; exact h2)

/-- C1 witness: instantiation at a concrete one-channel schedule. -/
theorem get_signals_one_per_channel_witness :
    (0 : ℝ) < 1 ∧
    (get_signals 1 [("d0", 5)] [Instruction.play [1] "d0"]).length = 1 := by
  have h := get_signals_one_per_channel 1 one_pos [("d0", 5)]
    [Instruction.play [1] "d0"]
  exact ⟨one_pos, h.1⟩

/-- C7: `signal_mapping` is defined for every unconstrained real parameter
vector; its normalized pre-convolution samples all lie in `[-1, 1]`, its
padded sample sequence begins with `0`, and its carrier frequency is the
qubit frequency `v`. -/
theorem signal_mapping_unconstrained (params : List ℝ) :
    (∀ x ∈ boundedSamples params, -1 ≤ x ∧ x ≤ 1) ∧
    (paddedSamples params).head? = some 0 ∧
    (signal_mapping params).carrier_freq = v := by
  have hpi : (0 : ℝ) < Real.pi / 2 := by positivity
  refine ⟨fun x hx => ?_, by simp [paddedSamples], rfl⟩
  obtain ⟨p, -, rfl⟩ := List.mem_map.mp hx
  constructor
  · rw [le_div_iff₀ hpi]
    have := Real.neg_pi_div_two_lt_arctan p
    linarith
  · rw [div_le_one hpi]
    exact (Real.arctan_lt_pi_div_two p).le

/-- C7 witness: instantiation at the concrete parameter vector `[0]`. -/
theorem signal_mapping_unconstrained_witness :
    ((-1 : ℝ) ≤ 0 ∧ (0 : ℝ) ≤ 1) ∧ (signal_mapping [0]).carrier_freq = v := by
  have h := signal_mapping_unconstrained [0]
  have hx : (0 : ℝ) ∈ boundedSamples [0] := by
    simp [boundedSamples]
  exact ⟨h.1 0 hx, h.2.2⟩

/-- The generator `-i·dt·H` of one solver step is skew-adjoint when `H` is
Hermitian. -/
theorem stepGen_skew (dt : ℝ) {H : Mat2} (hH : H.IsHermitian) :
    ((-(Complex.I * (dt : ℂ))) • H)ᴴ = -((-(Complex.I * (dt : ℂ))) • H) := by
  rw [Matrix.conjTranspose_smul, hH.eq, ← neg_smul]
  congr 1
  simp [Complex.ext_iff]

/-- One solver step is a unitary matrix when the Hamiltonian is Hermitian. -/
theorem stepU_unitary (dt : ℝ) {H : Mat2} (hH : H.IsHermitian) :
    IsUnitary (stepU dt H) := by
  have hskew := stepGen_skew dt hH
  set A := (-(Complex.I * (dt : ℂ))) • H with hA
  have hct : (NormedSpace.exp ℂ A)ᴴ = NormedSpace.exp ℂ (-A) := by
    rw [← hskew, Matrix.exp_conjTranspose]
  have h1 : NormedSpace.exp ℂ (-A) * NormedSpace.exp ℂ A = 1 := by
    rw [← Matrix.exp_add_of_commute ℂ (-A) A (Commute.neg_left (Commute.refl A))]
    simp
  have h2 : NormedSpace.exp ℂ A * NormedSpace.exp ℂ (-A) = 1 := by
    rw [← Matrix.exp_add_of_commute ℂ A (-A) (Commute.neg_right (Commute.refl A))]
    simp
  exact ⟨by rw [stepU, hct]; exact h1, by rw [stepU, hct]; exact h2⟩

/-- The product of unitary matrices is unitary. -/
theorem IsUnitary.mul {U V : Mat2} (hU : IsUnitary U) (hV : IsUnitary V) :
    IsUnitary (U * V) := by
  constructor
  · rw [Matrix.conjTranspose_mul, Matrix.mul_assoc, ← Matrix.mul_assoc Uᴴ, hU.1,
      Matrix.one_mul, hV.1]
  · rw [Matrix.conjTranspose_mul, Matrix.mul_assoc, ← Matrix.mul_assoc V, hV.2,
      Matrix.one_mul, hU.2]

/-- Unitary matrices preserve the squared norm of state vectors. -/
theorem norm2_mulVec {U : Mat2} (hU : IsUnitary U) (w : Fin 2 → ℂ) :
    norm2 (U.mulVec w) = norm2 w := by
  unfold norm2
  rw [Matrix.star_mulVec, Matrix.dotProduct_mulVec, Matrix.vecMul_vecMul, hU.1,
    Matrix.vecMul_one]

/-- Each Hamiltonian in the model's sequence is Hermitian when the drift and
drive operators are. -/
theorem hamSeq_hermitian {drift drive : Mat2} (hdrift : drift.IsHermitian)
    (hdrive : drive.IsHermitian) (coeffs : List ℝ) :
    ∀ H ∈ hamSeq drift drive coeffs, H.IsHermitian := by
  intro H hH
  rw [hamSeq] at hH
  obtain ⟨c, -, rfl⟩ := List.mem_map.mp hH
  have : ((c : ℂ) • drive).IsHermitian := by
    unfold Matrix.IsHermitian
    rw [Matrix.conjTranspose_smul, hdrive.eq, Complex.star_def, Complex.conj_ofReal]
  exact hdrift.add this

/-- Every snapshot of the operator trajectory is unitary when the step
Hamiltonians are Hermitian and the initial operator is unitary. -/
theorem matTraj_unitary (dt : ℝ) :
    ∀ (Hs : List Mat2) (y0 : Mat2), (∀ H ∈ Hs, H.IsHermitian) → IsUnitary y0 →
      ∀ U ∈ matTraj dt Hs y0, IsUnitary U := by
  intro Hs
  induction Hs with
  | nil =>
      intro y0 _ hy U hU
      simp only [matTraj, List.mem_singleton] at hU
      exact hU ▸ hy
  | cons H rest ih =>
      intro y0 hherm hy U hU
      rw [matTraj] at hU
      rcases List.mem_cons.mp hU with h | h
      · exact h ▸ hy
      · exact ih (stepU dt H * y0)
          (fun K hK => hherm K (List.mem_cons_of_mem _ hK))
          ((stepU_unitary dt (hherm H (List.mem_cons_self _ _))).mul hy) U h

/-- Every snapshot of the state trajectory has the initial squared norm when
the step Hamiltonians are Hermitian. -/
theorem vecTraj_norm2 (dt : ℝ) :
    ∀ (Hs : List Mat2) (y0 : Fin 2 → ℂ), (∀ H ∈ Hs, H.IsHermitian) →
      ∀ w ∈ vecTraj dt Hs y0, norm2 w = norm2 y0 := by
  intro Hs
  induction Hs with
  | nil =>
      intro y0 _ w hw
      simp only [vecTraj, List.mem_singleton] at hw
      rw [hw]
  | cons H rest ih =>
      intro y0 hherm w hw
      rw [vecTraj] at hw
      rcases List.mem_cons.mp hw with h | h
      · rw [h]
      · rw [ih ((stepU dt H).mulVec y0)
            (fun K hK => hherm K (List.mem_cons_of_mem _ hK)) w h]
        exact norm2_mulVec (stepU_unitary dt (hherm H (List.mem_cons_self _ _))) y0

/-- C2: under any Hermitian Hamiltonian model (drift plus real-signal-weighted
drive) the solver's trajectory from the 2×2 identity consists of unitary
snapshots (in particular the final one), and the trajectory from a normalized
state vector consists of normalized state vectors. -/
theorem solve_trajectory_unitary_and_normalized (dt : ℝ) (drift drive : Mat2)
    (coeffs : List ℝ) (hdrift : drift.IsHermitian) (hdrive : drive.IsHermitian) :
    (∀ U ∈ matTraj dt (hamSeq drift drive coeffs) (1 : Mat2), IsUnitary U) ∧
    ∀ y0 : Fin 2 → ℂ, norm2 y0 = 1 →
      ∀ w ∈ vecTraj dt (hamSeq drift drive coeffs) y0, norm2 w = 1 := by
  have hherm := hamSeq_hermitian hdrift hdrive coeffs
  constructor
  · exact matTraj_unitary dt _ 1 hherm
      ⟨by simp, by simp⟩
  · intro y0 hy0 w hw
    rw [vecTraj_norm2 dt _ y0 hherm w hw, hy0]

/-- The Pauli X matrix is Hermitian. -/
theorem X_op_hermitian : X_op.IsHermitian := by
  unfold Matrix.IsHermitian
  ext i j
  fin_cases i <;> fin_cases j <;> simp [X_op]

/-- C2 witness: instantiation at the Hermitian drift and drive `X` with one
step and the normalized initial state `(1, 0)`. -/
theorem solve_trajectory_witness :
    X_op.IsHermitian ∧ norm2 ![1, 0] = 1 ∧
    ∀ U ∈ matTraj 1 (hamSeq X_op X_op [1]) (1 : Mat2), IsUnitary U := by
  have hn : norm2 ![1, 0] = 1 := by
    simp [norm2, dotProduct, Fin.sum_univ_two]
  have h := solve_trajectory_unitary_and_normalized 1 X_op X_op [1]
    X_op_hermitian X_op_hermitian
  exact ⟨X_op_hermitian, hn, h.1⟩

/-- The trajectory has one snapshot per step plus the initial one. -/
theorem matTraj_length (dt : ℝ) :
    ∀ (Hs : List Mat2) (y0 : Mat2), (matTraj dt Hs y0).length = Hs.length + 1 := by
  intro Hs
  induction Hs with
  | nil => intro y0; rfl
  | cons H rest ih => intro y0; simp [matTraj, ih]

/-- C4: `objective params` equals `1 - fidelity U` where `U` is the final
snapshot of the Schrödinger solve from the identity under the single signal
`signal_mapping params`, and the solve covers the signal's whole duration
(one snapshot per sample plus the initial one). -/
theorem objective_eq_one_minus_fidelity (params : List ℝ) :
    objective params = 1 - fidelity (finalU params) ∧
    finalU params = (solve_y (signal_mapping params).dt static_hamiltonian
        drive_term (signal_mapping params) (1 : Mat2)).getLastD 1 ∧
    (solve_y (signal_mapping params).dt static_hamiltonian drive_term
        (signal_mapping params) (1 : Mat2)).length
      = (signalCoeffs (signal_mapping params)).length + 1 := by
  refine ⟨rfl, rfl, ?_⟩
  rw [solve_y, matTraj_length]
  simp [hamSeq]

/-- `N0` is the diagonal matrix of the second-factor occupation numbers. -/
theorem N0_diagonal : N0 = Matrix.diagonal fun p : Fin 3 × Fin 3 => ((p.2 : ℕ) : ℂ) := by
  rw [N0, ident, ← Matrix.diagonal_one, N, Matrix.diagonal_kronecker_diagonal]
  simp

/-- `N1` is the diagonal matrix of the first-factor occupation numbers. -/
theorem N1_diagonal : N1 = Matrix.diagonal fun p : Fin 3 × Fin 3 => ((p.1 : ℕ) : ℂ) := by
  rw [N1, ident, ← Matrix.diagonal_one, N, Matrix.diagonal_kronecker_diagonal]
  simp

/-- For diagonal matrices the Hadamard product agrees with the matrix
product. -/
theorem diagonal_hadamard_eq_mul (f g : Fin 3 × Fin 3 → ℂ) :
    Matrix.diagonal f ⊙ Matrix.diagonal g = Matrix.diagonal f * Matrix.diagonal g := by
  rw [Matrix.diagonal_hadamard_diagonal, Matrix.diagonal_mul_diagonal]
  rfl

/-- The elementwise anharmonic factor of subsystem 0 agrees with the matrix
product. -/
theorem N0_hadamard_eq_mul : N0 ⊙ (N0 - full_ident) = N0 * (N0 - full_ident) := by
  have h : N0 - full_ident
      = Matrix.diagonal ((fun p : Fin 3 × Fin 3 => ((p.2 : ℕ) : ℂ)) - fun _ => 1) := by
    rw [N0_diagonal, full_ident, ← Matrix.diagonal_one, Matrix.diagonal_sub]
    rfl
  rw [h, N0_diagonal, diagonal_hadamard_eq_mul]

/-- The elementwise anharmonic factor of subsystem 1 agrees with the matrix
product. -/
theorem N1_hadamard_eq_mul : N1 ⊙ (N1 - full_ident) = N1 * (N1 - full_ident) := by
  have h : N1 - full_ident
      = Matrix.diagonal ((fun p : Fin 3 × Fin 3 => ((p.1 : ℕ) : ℂ)) - fun _ => 1) := by
    rw [N1_diagonal, full_ident, ← Matrix.diagonal_one, Matrix.diagonal_sub]
    rfl
  rw [h, N1_diagonal, diagonal_hadamard_eq_mul]

/-- C5: the model builder's drift Hamiltonian equals the claimed formula with
matrix products in the anharmonic terms, the drive operators are
`2π·r·(a + a†)` embedded on the two-subsystem space, and the raising operator
is the transpose of the lowering operator. -/
theorem static_ham_full_eq_spec :
    static_ham_full = static_ham_full_spec ∧
    drive_op0 = ((2 * Real.pi * r0 : ℝ) : ℂ) • (a0 + a0dag) ∧
    drive_op1 = ((2 * Real.pi * r1 : ℝ) : ℂ) • (a1 + a1dag) ∧
    adag = aᵀ := by
  refine ⟨?_, rfl, rfl, ?_⟩
  · rw [static_ham_full, static_ham0, static_ham1, static_ham_full_spec,
      N0_hadamard_eq_mul, N1_hadamard_eq_mul]
    abel
  · ext i j
    simp [a, adag, Matrix.transpose_apply]

/-- C6: every job run on the backend yields one counts table per submitted
experiment; outcomes have one digit per subsystem, each digit strictly below
the corresponding entry of `subsystem_dims`, and the counts of each
experiment sum to the number of shots. -/
theorem backendRun_counts_sum (dims : List ℕ) (shots : ℕ) {σ : Type}
    (scheds : List σ) (sampler : σ → Fin shots → Outcome dims) :
    (backendRun dims shots scheds sampler).length = scheds.length ∧
    (∀ (o : Outcome dims) (i : Fin dims.length), (o i : ℕ) < dims.get i) ∧
    ∀ res ∈ backendRun dims shots scheds sampler, (∑ o : Outcome dims, res o) = shots := by
  refine ⟨by simp [backendRun], fun o i => (o i).isLt, fun res hres => ?_⟩
  rw [backendRun] at hres
  obtain ⟨c, -, rfl⟩ := List.mem_map.mp hres
  unfold counts
  rw [← Finset.card_eq_sum_card_fiberwise (fun x _ => Finset.mem_univ (sampler c x))]
  simp

/-- C6 witness: a concrete one-experiment job with three shots and no
subsystems. -/
theorem backendRun_counts_sum_witness :
    (∑ o : Outcome [], counts [] 3 (fun _ => fun i => i.elim0) o) = 3 := by
  have h := backendRun_counts_sum [] 3 [()] fun _ => fun _ => fun i => i.elim0
  exact h.2.2 _ (by simp [backendRun])

/-- The inverse frame transformation undoes the frame transformation. -/
theorem frameOut_mul_frameIn {d : ℕ} (F : MatN d) (t : ℝ) :
    frameOut F t * frameIn F t = 1 := by
  rw [frameOut, frameIn,
    ← Matrix.exp_add_of_commute ℂ _ _ (Commute.neg_left (Commute.refl _))]
  simp

/-- C8: the measurement outcome distribution returned by the backend is
independent of the rotating frame chosen in the solver — with any frame
operator `F` (in particular the static Hamiltonian) the final lab-frame state,
and hence the outcome distribution, is the same as with no rotating frame
(`F = 0`). -/
theorem run_independent_of_rotating_frame {d : ℕ} (F : MatN d) (t : ℝ)
    (U : MatN d) (y0 : Fin d → ℂ) :
    outcomeDist (labState F t U y0) = outcomeDist (labState 0 t U y0) ∧
    labState F t U y0 = U.mulVec y0 := by
  have key : ∀ G : MatN d, labState G t U y0 = U.mulVec y0 := by
    intro G
    rw [labState, Matrix.mulVec_mulVec, frameOut_mul_frameIn, Matrix.one_mulVec]
  rw [key F, key 0]
  exact ⟨rfl, rfl⟩

/-- The fold-based conversion accumulates exactly the converter's channel
samples. -/
theorem foldl_stepConv_acc (dt : ℝ) (ch : String) :
    ∀ (sched : List Instruction) (st : ConvState),
      (sched.foldl (stepConv dt ch) st).acc
        = st.acc ++ channelSamples dt ch st.phi st.df st.n sched := by
  intro sched
  induction sched with
  | nil => intro st; simp [channelSamples]
  | cons inst rest ih =>
      intro st
      cases inst with
      | play s c =>
          rw [List.foldl_cons, channelSamples]
          by_cases h : c = ch
          · simp only [stepConv, if_pos h, ih]
            rw [List.append_assoc]
          · simp only [stepConv, if_neg h, ih]
      | shiftPhase p c =>
          rw [List.foldl_cons, channelSamples]
          by_cases h : c = ch
          · simp only [stepConv, if_pos h, ih]
          · simp only [stepConv, if_neg h, ih]
      | shiftFrequency f c =>
          rw [List.foldl_cons, channelSamples]
          by_cases h : c = ch
          · simp only [stepConv, if_pos h, ih]
          · simp only [stepConv, if_neg h, ih]
      | acquire dur q reg =>
          rw [List.foldl_cons, channelSamples]
          simp only [stepConv, ih]

/-- C9: passing a schedule directly to `Solver.solve` produces identical
results to first converting it with `get_signals` (with the solver's `dt` and
channel carrier frequency) and passing the resulting signals to the same
solve call. -/
theorem solve_schedule_eq_solve_signals (dt : ℝ) (drift drive : Mat2)
    (ch : String) (f : ℝ) (sched : List Instruction) (y0 : Fin 2 → ℂ) :
    solve_schedule dt drift drive ch f sched y0
      = solve_signals dt drift drive (get_signals dt [(ch, f)] sched) y0 := by
  rw [solve_schedule, solve_signals, get_signals]
  have hconv : channelSamplesFold dt ch sched = channelSamples dt ch 0 0 0 sched := by
    rw [channelSamplesFold, foldl_stepConv_acc]
    simp
  rw [hconv]
  rfl

/-- Truncation at the first acquire ignores the acquire duration. -/
theorem truncAtAcquire_acquire_duration (q reg : ℕ) (post : List Instruction) :
    ∀ (pre : List Instruction) (d1 d2 : ℕ),
      truncAtAcquire (pre ++ Instruction.acquire d1 q reg :: post)
        = truncAtAcquire (pre ++ Instruction.acquire d2 q reg :: post) := by
  intro pre
  induction pre with
  | nil => intro d1 d2; rfl
  | cons i pre ih =>
      intro d1 d2
      cases i <;> simp [truncAtAcquire, ih d1 d2]

/-- C10: measurement outcomes are computed projectively from the state at the
start of the `Acquire` instruction, so two runs of the same schedule that
differ only in the duration of the `Acquire` instruction return identical
results. -/
theorem run_independent_of_acquire_duration (dt : ℝ) (drift drive : Mat2)
    (ch : String) (f : ℝ) (pre post : List Instruction) (q reg d1 d2 : ℕ)
    (y0 : Fin 2 → ℂ) :
    runDist dt drift drive ch f (pre ++ Instruction.acquire d1 q reg :: post) y0
      = runDist dt drift drive ch f (pre ++ Instruction.acquire d2 q reg :: post) y0 := by
  rw [runDist, runDist, measuredState, measuredState,
    truncAtAcquire_acquire_duration q reg post pre d1 d2]

end PulseTutorial

